import Mathlib

/-!
Verification of the styx query-and-merge engine (prometheus.go and the
renderer file) against its specification.

The Go code is shallowly embedded:
* Go maps (`map[string]string`, the per-series sample map, and the label
  set) are modelled as association lists `List (String × String)`; the
  list order stands for the (arbitrary) Go map iteration order, so
  theorems about map-order independence quantify over permutations.
* JSON `interface{}` values are modelled by the inductive `JVal`; a Go
  type assertion that can panic is modelled by an `Option`-returning
  function where `none` stands for the panic.
* the `float64` arithmetic of `steps` (`dur.Minutes() / 4.2`) is
  modelled bit-faithfully: every binary64 operation (int-to-double
  conversion, division, addition, and the literal `4.2`) is rounding to
  the nearest double (ties to even, 53-bit significand), implemented
  with exact integer arithmetic on numerator/denominator pairs
  (`flPair`, `flAdd`, `flDiv`); `int(x)` truncates toward zero
  (`truncPair`). Overflow and subnormals are not modelled — every value
  reachable from an int64 duration lies far inside the normal range.
* the HTTP transport, TLS setup and JSON decoding are external
  collaborators; the embedded `Query_onResponse` starts at the point where
  a status code and a decode outcome (`Option promResponse`) are in hand.
* `time.Unix(i64,0).String()` (local-time rendering in the CSV body) is an
  external, implementation-defined formatter and is passed in as the
  parameter `uxdate`.
-/

namespace Styx

/-- One decoded time series: display name and sample map (association
list keyed by the formatted timestamp; list order = map iteration order). -/
structure Result where
  Metric : String
  Values : List (String × String)
deriving DecidableEq

/-- Go's `<` on strings compares UTF-8 bytes lexicographically, which
coincides with code-point lexicographic order; modelled as the
lexicographic order on the character list. -/
def strLe (a b : String) : Prop := a.toList ≤ b.toList

/-- The strict form of [strLe]. -/
def strLt (a b : String) : Prop := a.toList < b.toList

instance : DecidableRel strLe :=
  fun a b => inferInstanceAs (Decidable (a.toList ≤ b.toList))

instance : DecidableRel strLt :=
  fun a b => inferInstanceAs (Decidable (a.toList < b.toList))

instance : IsTrans String strLe := ⟨fun _ _ _ hab hbc => le_trans hab hbc⟩

instance : IsTotal String strLe := ⟨fun a b => le_total a.toList b.toList⟩

instance : IsAntisymm String strLe :=
  ⟨fun _ _ hab hba => String.toList_inj.mp (le_antisymm hab hba)⟩

instance : IsTrans String strLt := ⟨fun _ _ _ hab hbc => lt_trans hab hbc⟩

instance : IsIrrefl String strLt := ⟨fun a => lt_irrefl a.toList⟩

/-- The `out` local of `metricName`: starts empty and is overwritten by
the value of each `__name__` binding encountered in iteration order. -/
def metricName_out (metric : List (String × String)) : String :=
  metric.foldl (fun acc kv => if kv.1 = "__name__" then kv.2 else acc) ""

/-- The `inner` local of `metricName`: every non-reserved binding
formatted as a `key="value"` fragment, in iteration order. -/
def metricName_inner (metric : List (String × String)) : List String :=
  (metric.filter (fun kv => !(kv.1 == "__name__"))).map
    (fun kv => kv.1 ++ "=\"" ++ kv.2 ++ "\"")

/-- Embeds `metricName` from prometheus.go: empty map renders as the
literal braces; the reserved key `__name__` is pulled out as the base
name; the remaining labels are formatted, sorted lexicographically and
joined with commas inside braces. -/
def metricName (metric : List (String × String)) : String :=
  if metric.length = 0 then "\x7b\x7d"
  else if (metricName_inner metric).length = 0 then metricName_out metric
  else metricName_out metric ++ "\x7b" ++
    String.intercalate "," ((metricName_inner metric).insertionSort strLe) ++ "\x7d"

/-- Nanoseconds in one minute (`time.Minute`). -/
def minuteNs : Int := 60 * 1000000000

/-- Fuel-driven floor of the base-2 logarithm; with fuel at least the
number itself the fuel never runs out. -/
def natLog2F : Nat → Nat → Nat
  | 0, _ => 0
  | fuel + 1, n => if 2 ≤ n then natLog2F fuel (n / 2) + 1 else 0

/-- Floor of the base-2 logarithm of a positive natural. -/
def natLog2 (n : Nat) : Nat := natLog2F n n

/-- Round the exact rational `n / d` (`d > 0`) to the nearest integer,
ties to even — the rounding step of every binary64 operation. -/
def intRHE (n d : ℤ) : ℤ :=
  if 2 * (n % d) < d then n / d
  else if d < 2 * (n % d) then n / d + 1
  else if n / d % 2 = 0 then n / d else n / d + 1

/-- The binary exponent of the positive rational `n / d`: the unique `E`
with `2^E ≤ n/d < 2^(E+1)`. -/
def ratExp (n d : ℤ) : ℤ :=
  if d ≤ n then (natLog2 (n / d).toNat : ℤ)
  else
    if d ≤ n * 2 ^ natLog2 (d / n).toNat then -(natLog2 (d / n).toNat : ℤ)
    else -(natLog2 (d / n).toNat : ℤ) - 1

/-- Round the positive rational `n / d` to the nearest binary64 value
(53-bit significand, ties to even), returned as an unreduced fraction
with a power-of-two denominator. -/
def flPairPos (n d : ℤ) : ℤ × ℤ :=
  if ratExp n d ≤ 52 then
    (intRHE (n * 2 ^ (52 - ratExp n d).toNat) d, 2 ^ (52 - ratExp n d).toNat)
  else
    (intRHE n (d * 2 ^ (ratExp n d - 52).toNat) * 2 ^ (ratExp n d - 52).toNat, 1)

/-- Round any exact rational `n / d` (`d > 0`) to the nearest binary64
value; rounding is sign-symmetric. -/
def flPair (n d : ℤ) : ℤ × ℤ :=
  if n = 0 then (0, 1)
  else if n < 0 then (-(flPairPos (-n) d).1, (flPairPos (-n) d).2)
  else flPairPos n d

/-- The exact rational value of a numerator/denominator pair. -/
def pairVal (x : ℤ × ℤ) : ℚ := (x.1 : ℚ) / (x.2 : ℚ)

/-- The unit relative rounding error of binary64, `2⁻⁵³`. -/
def eps : ℚ := ((2:ℚ) ^ (53:ℕ))⁻¹

/-- Binary64 addition: exact sum, then rounding. -/
def flAdd (x y : ℤ × ℤ) : ℤ × ℤ := flPair (x.1 * y.2 + y.1 * x.2) (x.2 * y.2)

/-- Binary64 division: exact quotient, then rounding. -/
def flDiv (x y : ℤ × ℤ) : ℤ × ℤ := flPair (x.1 * y.2) (x.2 * y.1)

/-- The binary64 value of the Go literal `4.2`:
`4728779608739021 × 2⁻⁵⁰`, the nearest double to `21/5` (proved below by
`flPair 21 5 = fl4_2`). -/
def fl4_2 : ℤ × ℤ := (4728779608739021, 1125899906842624)

/-- Go `Duration.Minutes()`: `float64(d / Minute) +
float64(d % Minute) / (60*1e9)` — integer division and remainder are
Go-truncated, the divisor `6e10` is exactly representable, and each
conversion, the division and the addition round to nearest. -/
def goMinutes (d : ℤ) : ℤ × ℤ :=
  flAdd (flPair (Int.tdiv d 60000000000) 1)
        (flDiv (flPair (Int.tmod d 60000000000) 1) (60000000000, 1))

/-- Go `int(x)` on a float value: truncation toward zero. -/
def truncPair (x : ℤ × ℤ) : ℤ := Int.tdiv x.1 x.2

/-- Embeds `steps` from prometheus.go. The duration is in nanoseconds
(`time.Duration`, an int64). The last branch is Go
`int(dur.Minutes() / 4.2)` in bit-faithful binary64 arithmetic. -/
def steps (step : Int) (durNs : Int) : Int :=
  if step > 0 then step
  else if durNs < 15 * minuteNs then 1
  else if durNs < 30 * minuteNs then 3
  else truncPair (flDiv (goMinutes durNs) fl4_2)

/-- Request path used by `Query`. -/
def queryPath : String := "api/v1/query_range"

/-- Request path used by `IcpQuery`. -/
def icpPath : String := "prometheus/api/v1/query_range"

/-- A decoded JSON value as it appears in a `values` entry
(`[]interface{}`): a number (`float64`, modelled exactly as a rational),
a string, or anything else (null, bool, array, object — every shape on
which both Go type assertions fail). -/
inductive JVal where
  | num (x : ℚ)
  | str (s : String)
  | other
deriving DecidableEq

/-- One entry of `data.result` in the decoded response body. -/
structure promResult where
  metric : List (String × String)
  values : List (List JVal)
deriving DecidableEq

/-- The `data` object of the decoded response body. -/
structure promData where
  resultType : String
  result : List promResult
deriving DecidableEq

/-- The decoded response body (`promResponse` in prometheus.go). -/
structure promResponse where
  status : String
  data : promData
deriving DecidableEq

deriving instance DecidableEq for Except

/-- Go map assignment `m[k] = v`: overwrite the binding if the key is
present, else append a new binding. -/
def mapInsert (m : List (String × String)) (k v : String) : List (String × String) :=
  if m.any (fun kv => kv.1 == k) then
    m.map (fun kv => if kv.1 == k then (k, v) else kv)
  else m ++ [(k, v)]

/-- Round half to even, the rounding of Go `fmt.Sprintf("%.f", x)`.
The fractional part `r = q - ⌊q⌋ = (q.num - ⌊q⌋·q.den) / q.den` is
compared against one half in integer arithmetic: `r < 1/2` iff
`2·(q.num - ⌊q⌋·q.den) < q.den`. -/
def roundHalfEven (q : ℚ) : ℤ :=
  let f := ⌊q⌋
  let twice := 2 * (q.num - f * (q.den : ℤ))
  if twice < (q.den : ℤ) then f
  else if (q.den : ℤ) < twice then f + 1
  else if f % 2 = 0 then f else f + 1

/-- Go `fmt.Sprintf("%.f", timestamp)`: the timestamp with no fractional
digits. -/
def fmtNoFrac (q : ℚ) : String := toString (roundHalfEven q)

/-- The sample-extraction loop of `Query`: each `vals` entry must have a
number at index 0 and a string at index 1, otherwise the Go type
assertion (or index) panics — modelled as `none`. On success the pair is
written into the sample map keyed by the formatted timestamp. -/
def Query_values : List (List JVal) → List (String × String) → Option (List (String × String))
  | [], m => some m
  | vals :: rest, m =>
    match vals with
    | JVal.num t :: JVal.str v :: _ => Query_values rest (mapInsert m (fmtNoFrac t) v)
    | _ => none

/-- The result-construction loop of `Query`: one `Result` per response
series, in response order. -/
def Query_results : List promResult → Option (List Result)
  | [] => some []
  | res :: rest => do
    let vs ← Query_values res.values []
    let rs ← Query_results rest
    pure ({ Metric := metricName res.metric, Values := vs } :: rs)

/-- The error classification of `Query` (§7 of the spec). -/
inductive QueryError where
  | requestFailed (statusText : String) (url : String)
  | decodeError
  | unsupportedResultType (t : String)
  | emptyResult
deriving DecidableEq

/-- Embeds the response-handling phase of `Query` (after `client.Get`
returned a response): the status check, the JSON decode outcome (`none`
= malformed body), the `resultType` check, the empty-result check, then
the extraction loops. The outer `Option` is `none` exactly when a type
assertion in the loop would panic. -/
def Query_onResponse (url : String) (statusCode : Nat) (statusText : String)
    (body : Option promResponse) : Option (Except QueryError (List Result)) :=
  if statusCode ≠ 200 then some (Except.error (QueryError.requestFailed statusText url))
  else
    match body with
    | none => some (Except.error QueryError.decodeError)
    | some resp =>
      if resp.data.resultType ≠ "matrix" then
        some (Except.error (QueryError.unsupportedResultType resp.data.resultType))
      else if resp.data.result.length = 0 then
        some (Except.error QueryError.emptyResult)
      else
        match Query_results resp.data.result with
        | none => none
        | some results => some (Except.ok results)

/-- The sample-extraction loop of `IcpQuery` (a textual duplicate of the
one in `Query`, embedded separately because the source duplicates it). -/
def IcpQuery_values : List (List JVal) → List (String × String) → Option (List (String × String))
  | [], m => some m
  | vals :: rest, m =>
    match vals with
    | JVal.num t :: JVal.str v :: _ => IcpQuery_values rest (mapInsert m (fmtNoFrac t) v)
    | _ => none

/-- The result-construction loop of `IcpQuery`. -/
def IcpQuery_results : List promResult → Option (List Result)
  | [] => some []
  | res :: rest => do
    let vs ← IcpQuery_values res.values []
    let rs ← IcpQuery_results rest
    pure ({ Metric := metricName res.metric, Values := vs } :: rs)

/-- Embeds the response-handling phase of `IcpQuery` (duplicated from
`Query` in the source). -/
def IcpQuery_onResponse (url : String) (statusCode : Nat) (statusText : String)
    (body : Option promResponse) : Option (Except QueryError (List Result)) :=
  if statusCode ≠ 200 then some (Except.error (QueryError.requestFailed statusText url))
  else
    match body with
    | none => some (Except.error QueryError.decodeError)
    | some resp =>
      if resp.data.resultType ≠ "matrix" then
        some (Except.error (QueryError.unsupportedResultType resp.data.resultType))
      else if resp.data.result.length = 0 then
        some (Except.error QueryError.emptyResult)
      else
        match IcpQuery_results resp.data.result with
        | none => none
        | some results => some (Except.ok results)

/-- The timestamp keys of one series' sample map. -/
def seriesKeys (r : Result) : List String := r.Values.map Prod.fst

/-- The key set of `timesMap` in the renderers: all timestamps of all
series, deduplicated (insertion into a Go map keyed by the timestamp). -/
def unionTimes (results : List Result) : List String :=
  ((results.map seriesKeys).flatten).dedup

/-- The sorted `times` slice of the renderers: the deduplicated union of
all timestamps, sorted ascending by string comparison (`sort.Slice` with
`times[i] < times[j]`; on distinct keys any correct sort yields this
unique order). -/
def sortedTimes (results : List Result) : List String :=
  (unionTimes results).insertionSort strLe

/-- The per-timestamp CSV fields: `result.Values[tm]` for each series in
order; a missing key yields the Go zero value, the empty string. -/
def csvFields (results : List Result) (tm : String) : List String :=
  results.map (fun r => (r.Values.lookup tm).getD "")

/-- One CSV body line: rendered timestamp, then a comma-led field per
series. -/
def csvRow (uxdate : String → String) (results : List Result) (tm : String) : String :=
  uxdate tm ++ String.join ((csvFields results tm).map (fun v => "," ++ v)) ++ "\n"

/-- Embeds `csvWriter`: nothing for an empty result set, else one line
per timestamp of the sorted deduplicated union. -/
def csvWriter (uxdate : String → String) (results : List Result) : String :=
  if results.length = 0 then ""
  else String.join ((sortedTimes results).map (csvRow uxdate results))

/-- Embeds `csvHeaderWriter`: `Time` followed by each display name. -/
def csvHeaderWriter (results : List Result) : String :=
  if results.length = 0 then ""
  else String.intercalate "," ("Time" :: results.map (fun r => r.Metric)) ++ "\n"

/-- The aligned value list of one series over a timestamp axis: the
sample where present, the literal `None` where absent. -/
def mplVals (times : List String) (r : Result) : List String :=
  times.map (fun tm => (r.Values.lookup tm).getD "None")

/-- The two lines emitted per series by `matplotlibWriter`. -/
def mplSeriesLines (times : List String) (i : Nat) (r : Result) : String :=
  "s" ++ toString i ++ " = [" ++ String.intercalate ", " (mplVals times r) ++ "]\n" ++
  "plot.plot(t, s" ++ toString i ++ ")\n"

/-- Embeds `matplotlibWriter`: nothing for an empty result set, else the
shared axis line followed by a value list and plot statement per series. -/
def matplotlibWriter (results : List Result) : String :=
  if results.length = 0 then ""
  else
    "t = [" ++ String.intercalate ", " (sortedTimes results) ++ "]\n" ++
    String.join (results.enum.map (fun p => mplSeriesLines (sortedTimes results) p.1 p.2))

/-- Embeds `matplotlibLegendWriter`: one legend statement listing the
quoted display names. Note: no empty-input guard in the source. -/
def matplotlibLegendWriter (results : List Result) : String :=
  "plot.legend([" ++
    String.intercalate ", " (results.map (fun r => "'" ++ r.Metric ++ "'")) ++
  "], loc='upper left')\n"

/-- The always-successful version of the sample-extraction loop: entries
that would make the Go type assertion panic are skipped instead. On
well-shaped input it describes the value computed by `Query_values`. -/
def pureValues : List (List JVal) → List (String × String) → List (String × String)
  | [], m => m
  | vals :: rest, m =>
    match vals with
    | JVal.num t :: JVal.str v :: _ => pureValues rest (mapInsert m (fmtNoFrac t) v)
    | _ => pureValues rest m

/-! ### Helper lemmas -/

/-- Two permuted lists have the same insertion sort (by the total,
antisymmetric order [strLe]). -/
theorem insertionSort_eq_of_perm {l₁ l₂ : List String} (h : l₁.Perm l₂) :
    l₁.insertionSort strLe = l₂.insertionSort strLe :=
  List.eq_of_perm_of_sorted
    ((List.perm_insertionSort strLe l₁).trans (h.trans (List.perm_insertionSort strLe l₂).symm))
    (List.sorted_insertionSort strLe l₁) (List.sorted_insertionSort strLe l₂)

/-- The `out` accumulator of `metricName` is the value of the last
`__name__` binding, or the initial accumulator when there is none. -/
theorem foldl_name_overwrite (l : List (String × String)) (a : String) :
    l.foldl (fun acc kv => if kv.1 = "__name__" then kv.2 else acc) a
      = ((l.filter (fun kv => kv.1 == "__name__")).map Prod.snd).getLastD a := by
  induction l generalizing a with
  | nil => rfl
  | cons kv t ih =>
    by_cases hk : kv.1 = "__name__"
    · rw [List.foldl_cons, if_pos hk, List.filter_cons_of_pos (by simp [hk]),
        List.map_cons, List.getLastD_cons]
      exact ih kv.2
    · rw [List.foldl_cons, if_neg hk, List.filter_cons_of_neg (by simp [hk])]
      exact ih a

/-- In a label list with pairwise-distinct keys, at most one binding can
carry any given key. -/
theorem filter_key_length_le_one (l : List (String × String)) (c : String)
    (h : (l.map Prod.fst).Nodup) :
    (l.filter (fun kv => kv.1 == c)).length ≤ 1 := by
  induction l with
  | nil => simp
  | cons kv t ih =>
    simp only [List.map_cons, List.nodup_cons] at h
    by_cases hk : kv.1 = c
    · have ht : t.filter (fun kv => kv.1 == c) = [] := by
        rw [List.filter_eq_nil_iff]
        intro z hz hzc
        exact h.1 (hk ▸ (beq_iff_eq.mp hzc) ▸ List.mem_map_of_mem Prod.fst hz)
      simp [hk, ht]
    · simpa [hk] using ih h.2

/-- A permutation of a list of length at most one is equal to it. -/
theorem eq_of_perm_of_length_le_one {α : Type} {l₁ l₂ : List α}
    (h : l₁.Perm l₂) (hl : l₁.length ≤ 1) : l₁ = l₂ := by
  match l₁, hl with
  | [], _ => exact h.nil_eq
  | [a], _ => exact List.singleton_perm.mp h

/-- A string of the shape `a{s}` is never empty. -/
theorem brace_append_ne_empty (a s : String) :
    a ++ "\x7b" ++ s ++ "\x7d" ≠ "" := by
  intro he
  have hl := congrArg String.length he
  have h1 : ("\x7b" : String).length = 1 := rfl
  have h2 : ("\x7d" : String).length = 1 := rfl
  have h0 : ("" : String).length = 0 := rfl
  simp only [String.length_append, h1, h2, h0] at hl
  omega

/-- With enough fuel, `natLog2F` brackets its input between powers of two. -/
theorem natLog2F_spec : ∀ (fuel n : Nat), 1 ≤ n → n < 2 ^ fuel →
    2 ^ natLog2F fuel n ≤ n ∧ n < 2 ^ (natLog2F fuel n + 1) := by
  intro fuel
  induction fuel with
  | zero =>
    intro n h1 h2
    simp at h2
    omega
  | succ fuel ih =>
    intro n h1 h2
    by_cases h : 2 ≤ n
    · have hn2 : n / 2 < 2 ^ fuel := by
        rw [pow_succ] at h2
        omega
      have h12 : 1 ≤ n / 2 := by omega
      obtain ⟨hl, hr⟩ := ih (n / 2) h12 hn2
      rw [natLog2F, if_pos h]
      rw [pow_succ] at hr
      constructor
      · rw [pow_succ]
        omega
      · rw [pow_succ, pow_succ]
        omega
    · have hn : n = 1 := by omega
      subst hn
      rw [natLog2F, if_neg h]
      omega

/-- `natLog2` brackets a positive natural between powers of two. -/
theorem natLog2_spec (n : Nat) (h1 : 1 ≤ n) :
    2 ^ natLog2 n ≤ n ∧ n < 2 ^ (natLog2 n + 1) :=
  natLog2F_spec n n h1 (Nat.lt_two_pow n)

/-- Rounding to the nearest integer moves the value by at most one half. -/
theorem intRHE_bounds (n d : ℤ) (hd : 0 < d) :
    (n : ℚ) / d - 1/2 ≤ (intRHE n d : ℚ) ∧ (intRHE n d : ℚ) ≤ (n : ℚ) / d + 1/2 := by
  have hd0 : (0:ℚ) < (d:ℚ) := by exact_mod_cast hd
  have hmod : d * (n / d) + n % d = n := Int.ediv_add_emod n d
  have hr0 : (0:ℤ) ≤ n % d := Int.emod_nonneg n (ne_of_gt hd)
  have hrd : n % d < d := Int.emod_lt_of_pos n hd
  have hcast : (d:ℚ) * ((n / d : ℤ) : ℚ) + ((n % d : ℤ) : ℚ) = (n : ℚ) := by
    exact_mod_cast hmod
  have hval : (n:ℚ)/d = ((n / d : ℤ) : ℚ) + ((n % d : ℤ):ℚ)/(d:ℚ) := by
    field_simp
    linear_combination -hcast
  have hQ0 : (0:ℚ) ≤ ((n % d : ℤ):ℚ)/(d:ℚ) :=
    div_nonneg (by exact_mod_cast hr0) (le_of_lt hd0)
  have hQ1 : ((n % d : ℤ):ℚ)/(d:ℚ) < 1 := by
    rw [div_lt_one hd0]
    exact_mod_cast hrd
  rw [intRHE]
  by_cases h1 : 2 * (n % d) < d
  · rw [if_pos h1]
    have h1' : (2:ℚ) * ((n % d : ℤ):ℚ) < (d:ℚ) := by exact_mod_cast h1
    have hlt : ((n % d : ℤ):ℚ)/(d:ℚ) < 1/2 := by
      rw [div_lt_div_iff₀ hd0 (by norm_num : (0:ℚ) < 2)]
      linarith
    constructor
    · rw [hval]
      linarith
    · rw [hval]
      linarith
  · rw [if_neg h1]
    have h1' : (d:ℚ) ≤ (2:ℚ) * ((n % d : ℤ):ℚ) := by exact_mod_cast not_lt.mp h1
    have hge : (1:ℚ)/2 ≤ ((n % d : ℤ):ℚ)/(d:ℚ) := by
      rw [div_le_div_iff₀ (by norm_num : (0:ℚ) < 2) hd0]
      linarith
    by_cases h2 : d < 2 * (n % d)
    · rw [if_pos h2]
      constructor
      · rw [hval]
        push_cast
        linarith
      · rw [hval]
        push_cast
        linarith
    · rw [if_neg h2]
      have hdq : (2:ℚ) * ((n % d : ℤ):ℚ) = (d:ℚ) := by
        exact_mod_cast (by omega : 2 * (n % d) = d)
      have heq : ((n % d : ℤ):ℚ)/(d:ℚ) = 1/2 := by
        rw [div_eq_div_iff (ne_of_gt hd0) (by norm_num : (2:ℚ) ≠ 0)]
        linarith
      by_cases h3 : n / d % 2 = 0
      · rw [if_pos h3]
        constructor
        · rw [hval]
          linarith
        · rw [hval]
          linarith
      · rw [if_neg h3]
        constructor
        · rw [hval]
          push_cast
          linarith
        · rw [hval]
          push_cast
          linarith

/-- `ratExp` really computes the binary exponent. -/
theorem ratExp_spec (n d : ℤ) (hn : 0 < n) (hd : 0 < d) :
    (2:ℚ) ^ (ratExp n d) ≤ (n:ℚ) / d ∧ (n:ℚ) / d < (2:ℚ) ^ (ratExp n d + 1) := by
  have hd0 : (0:ℚ) < (d:ℚ) := by exact_mod_cast hd
  have hn0 : (0:ℚ) < (n:ℚ) := by exact_mod_cast hn
  rw [ratExp]
  by_cases hle : d ≤ n
  · rw [if_pos hle]
    have hq1 : 1 ≤ n / d := by
      rw [Int.le_ediv_iff_mul_le hd]
      linarith
    have hqt : ((n / d).toNat : ℤ) = n / d := Int.toNat_of_nonneg (by omega)
    obtain ⟨hl, hr⟩ := natLog2_spec (n / d).toNat (by omega)
    have hmul : n / d * d ≤ n := Int.ediv_mul_le n (ne_of_gt hd)
    have hup : n < (n / d + 1) * d := Int.lt_ediv_add_one_mul_self n hd
    have hlZ : (2:ℤ) ^ natLog2 (n / d).toNat ≤ n / d := by
      calc (2:ℤ) ^ natLog2 (n / d).toNat = ((2 ^ natLog2 (n / d).toNat : ℕ) : ℤ) := by push_cast; ring
      _ ≤ ((n / d).toNat : ℤ) := by exact_mod_cast hl
      _ = n / d := hqt
    have hrZ : n / d < (2:ℤ) ^ (natLog2 (n / d).toNat + 1) := by
      calc n / d = ((n / d).toNat : ℤ) := hqt.symm
      _ < ((2 ^ (natLog2 (n / d).toNat + 1) : ℕ) : ℤ) := by exact_mod_cast hr
      _ = (2:ℤ) ^ (natLog2 (n / d).toNat + 1) := by push_cast; ring
    constructor
    · rw [zpow_natCast, le_div_iff₀ hd0]
      have hlQ : (2:ℚ) ^ natLog2 (n / d).toNat ≤ ((n / d : ℤ) : ℚ) := by
        exact_mod_cast hlZ
      have hmulQ : ((n / d : ℤ) : ℚ) * d ≤ (n:ℚ) := by exact_mod_cast hmul
      nlinarith [hd0]
    · have : ((natLog2 (n / d).toNat : ℤ) + 1) = ((natLog2 (n / d).toNat + 1 : ℕ) : ℤ) := by push_cast; ring
      rw [this, zpow_natCast, div_lt_iff₀ hd0]
      calc (n:ℚ) < (((n / d + 1) * d : ℤ) : ℚ) := by exact_mod_cast hup
      _ = ((n / d : ℤ) : ℚ) * d + d := by push_cast; ring
      _ ≤ ((((2:ℤ) ^ (natLog2 (n / d).toNat + 1) - 1 : ℤ)) : ℚ) * d + d := by
          have : ((n / d : ℤ) : ℚ) ≤ (((2:ℤ) ^ (natLog2 (n / d).toNat + 1) - 1 : ℤ) : ℚ) := by
            exact_mod_cast (by omega : n / d ≤ (2:ℤ) ^ (natLog2 (n / d).toNat + 1) - 1)
          nlinarith [hd0]
      _ = ((((2:ℤ) ^ (natLog2 (n / d).toNat + 1) : ℤ)) : ℚ) * d - d + d := by push_cast; ring
      _ ≤ (2:ℚ) ^ (natLog2 (n / d).toNat + 1) * d := by
          have : ((((2:ℤ) ^ (natLog2 (n / d).toNat + 1) : ℤ)) : ℚ) = (2:ℚ) ^ (natLog2 (n / d).toNat + 1) := by push_cast; ring
          rw [this]
          linarith
  · rw [if_neg hle]
    have hnd : n < d := not_le.mp hle
    have hb1 : 1 ≤ d / n := by
      rw [Int.le_ediv_iff_mul_le hn]
      linarith
    have hbt : ((d / n).toNat : ℤ) = d / n := Int.toNat_of_nonneg (by omega)
    obtain ⟨hl, hr⟩ := natLog2_spec (d / n).toNat (by omega)
    have hmul : d / n * n ≤ d := Int.ediv_mul_le d (ne_of_gt hn)
    have hup : d < (d / n + 1) * n := Int.lt_ediv_add_one_mul_self d hn
    set j := natLog2 (d / n).toNat with hj
    have hlZ : (2:ℤ) ^ j ≤ d / n := by
      calc (2:ℤ) ^ j = ((2 ^ j : ℕ) : ℤ) := by push_cast; ring
      _ ≤ ((d / n).toNat : ℤ) := by exact_mod_cast hl
      _ = d / n := hbt
    have hrZ : d / n < (2:ℤ) ^ (j + 1) := by
      calc d / n = ((d / n).toNat : ℤ) := hbt.symm
      _ < ((2 ^ (j + 1) : ℕ) : ℤ) := by exact_mod_cast hr
      _ = (2:ℤ) ^ (j + 1) := by push_cast; ring
    -- n * 2^j ≤ d always here: from 2^j ≤ d/n and (d/n)*n ≤ d
    have hkey : n * 2 ^ j ≤ d := by
      calc n * 2 ^ j ≤ n * (d / n) := by
            have := hlZ
            nlinarith
      _ = d / n * n := by ring
      _ ≤ d := hmul
    -- and d < n * 2^(j+1): from d < (d/n + 1)*n ≤ 2^(j+1)*n
    have hkey2 : d < n * 2 ^ (j + 1) := by
      calc d < (d / n + 1) * n := hup
      _ ≤ (2:ℤ) ^ (j + 1) * n := by
            have : d / n + 1 ≤ (2:ℤ) ^ (j + 1) := by omega
            nlinarith
      _ = n * 2 ^ (j + 1) := by ring
    have h2jQ : (0:ℚ) < (2:ℚ) ^ j := by positivity
    by_cases hc : d ≤ n * 2 ^ j
    · rw [if_pos hc]
      constructor
      · rw [zpow_neg, zpow_natCast, inv_eq_one_div, div_le_div_iff₀ (by positivity) hd0]
        have hcQ : (d:ℚ) ≤ (n:ℚ) * 2 ^ j := by exact_mod_cast hc
        linarith
      · have hkeyQ : (n:ℚ) * 2 ^ j ≤ (d:ℚ) := by exact_mod_cast hkey
        have hq1 : (n:ℚ)/d ≤ 1 / 2 ^ j := by
          rw [div_le_div_iff₀ hd0 (by positivity)]
          linarith
        have h2 : (2:ℚ) ^ (-(j:ℤ) + 1) = 2 / 2 ^ j := by
          rw [zpow_add₀ (by norm_num : (2:ℚ) ≠ 0), zpow_neg, zpow_natCast, zpow_one]
          field_simp
        rw [h2]
        have h3 : (0:ℚ) < 1 / 2 ^ j := by positivity
        have h4 : (2:ℚ) / 2 ^ j = 1 / 2 ^ j + 1 / 2 ^ j := by ring
        linarith
    · rw [if_neg hc]
      constructor
      · have e1 : (2:ℚ) ^ (-(j:ℤ) - 1) = 1 / 2 ^ (j + 1) := by
          rw [show -(j:ℤ) - 1 = -((j + 1 : ℕ) : ℤ) by push_cast; ring, zpow_neg,
            zpow_natCast, inv_eq_one_div]
        rw [e1, div_le_div_iff₀ (by positivity) hd0]
        have hkQ : (d:ℚ) < (n:ℚ) * 2 ^ (j + 1) := by exact_mod_cast hkey2
        linarith
      · have e2 : (2:ℚ) ^ (-(j:ℤ) - 1 + 1) = 1 / 2 ^ j := by
          rw [show -(j:ℤ) - 1 + 1 = -(j:ℤ) by ring, zpow_neg, zpow_natCast, inv_eq_one_div]
        rw [e2, div_lt_div_iff₀ hd0 (by positivity)]
        have hcQ : (n:ℚ) * 2 ^ j < (d:ℚ) := by exact_mod_cast not_le.mp hc
        linarith

/-- The denominator produced by `flPairPos` is positive. -/
theorem flPairPos_den_pos (n d : ℤ) : 0 < (flPairPos n d).2 := by
  rw [flPairPos]
  by_cases h : ratExp n d ≤ 52
  · rw [if_pos h]
    positivity
  · rw [if_neg h]
    norm_num

/-- The denominator produced by `flPair` is positive. -/
theorem flPair_den_pos (n d : ℤ) : 0 < (flPair n d).2 := by
  rw [flPair]
  by_cases h0 : n = 0
  · rw [if_pos h0]
    norm_num
  · rw [if_neg h0]
    by_cases hneg : n < 0
    · rw [if_pos hneg]
      exact flPairPos_den_pos (-n) d
    · rw [if_neg hneg]
      exact flPairPos_den_pos n d

/-- Binary64 rounding of a positive rational has relative error at most `eps` in either direction (half-ulp error at binary exponent `E` is `2^(E-53) ≤ value·eps`). -/
theorem flPairPos_bounds (n d : ℤ) (hn : 0 < n) (hd : 0 < d) :
    (n:ℚ)/d * (1 - eps) ≤ pairVal (flPairPos n d)
    ∧ pairVal (flPairPos n d) ≤ (n:ℚ)/d * (1 + eps) := by
  have hd0 : (0:ℚ) < (d:ℚ) := by exact_mod_cast hd
  have hn0 : (0:ℚ) < (n:ℚ) := by exact_mod_cast hn
  have heps0 : (0:ℚ) < eps := by rw [eps]; positivity
  obtain ⟨hE1, hE2⟩ := ratExp_spec n d hn hd
  have hepsbound : (2:ℚ) ^ (ratExp n d - 53) ≤ (n:ℚ)/d * eps := by
    have he : (2:ℚ) ^ (ratExp n d - 53) = (2:ℚ) ^ (ratExp n d) * eps := by
      rw [zpow_sub₀ (by norm_num : (2:ℚ) ≠ 0), div_eq_mul_inv, eps]
      norm_num
    rw [he]
    exact mul_le_mul_of_nonneg_right hE1 (le_of_lt heps0)
  rw [flPairPos]
  by_cases hE : ratExp n d ≤ 52
  · rw [if_pos hE]
    obtain ⟨hlo, hhi⟩ := intRHE_bounds (n * 2 ^ (52 - ratExp n d).toNat) d hd
    have hsZ : ((52 - ratExp n d).toNat : ℤ) = 52 - ratExp n d :=
      Int.toNat_of_nonneg (by omega)
    have hpow0 : (0:ℚ) < (2:ℚ) ^ ((52 - ratExp n d).toNat) := by positivity
    have hqP : ((n * 2 ^ (52 - ratExp n d).toNat : ℤ) : ℚ) / d
        = (n:ℚ)/d * 2 ^ ((52 - ratExp n d).toNat) := by
      push_cast
      ring
    rw [hqP] at hlo hhi
    have hhalf : (2:ℚ) ^ (ratExp n d - 53) * 2 ^ ((52 - ratExp n d).toNat) = 1/2 := by
      rw [← zpow_natCast (2:ℚ) ((52 - ratExp n d).toNat), hsZ,
        ← zpow_add₀ (by norm_num : (2:ℚ) ≠ 0)]
      norm_num
    have hkey : (1:ℚ)/2 ≤ (n:ℚ)/d * eps * 2 ^ ((52 - ratExp n d).toNat) := by
      rw [← hhalf]
      exact mul_le_mul_of_nonneg_right hepsbound (le_of_lt hpow0)
    rw [pairVal]
    have hden : (((2:ℤ) ^ ((52 - ratExp n d).toNat) : ℤ) : ℚ)
        = (2:ℚ) ^ ((52 - ratExp n d).toNat) := by push_cast; ring
    constructor
    · show (n:ℚ)/d * (1 - eps) ≤ _ / _
      rw [hden, le_div_iff₀ hpow0]
      nlinarith [hlo, hkey]
    · show _ / _ ≤ (n:ℚ)/d * (1 + eps)
      rw [hden, div_le_iff₀ hpow0]
      nlinarith [hhi, hkey]
  · rw [if_neg hE]
    have hu0 : (0:ℤ) < 2 ^ (ratExp n d - 52).toNat := by positivity
    have hdu : (0:ℤ) < d * 2 ^ (ratExp n d - 52).toNat := by positivity
    obtain ⟨hlo, hhi⟩ := intRHE_bounds n (d * 2 ^ (ratExp n d - 52).toNat) hdu
    have huZ : ((ratExp n d - 52).toNat : ℤ) = ratExp n d - 52 :=
      Int.toNat_of_nonneg (by omega)
    have hpowu0 : (0:ℚ) < (2:ℚ) ^ ((ratExp n d - 52).toNat) := by positivity
    have hqU : ((d * 2 ^ (ratExp n d - 52).toNat : ℤ) : ℚ)
        = (d:ℚ) * 2 ^ ((ratExp n d - 52).toNat) := by push_cast; ring
    have hqq : (n:ℚ) / ((d * 2 ^ (ratExp n d - 52).toNat : ℤ) : ℚ)
        = (n:ℚ)/d / 2 ^ ((ratExp n d - 52).toNat) := by
      rw [hqU, div_div]
    rw [hqq] at hlo hhi
    have hhalfU : (1:ℚ)/2 * 2 ^ ((ratExp n d - 52).toNat) = (2:ℚ) ^ (ratExp n d - 53) := by
      rw [← zpow_natCast (2:ℚ) ((ratExp n d - 52).toNat), huZ,
        zpow_sub₀ (by norm_num : (2:ℚ) ≠ 0), zpow_sub₀ (by norm_num : (2:ℚ) ≠ 0)]
      norm_num
      ring
    have hkeyU : (1:ℚ)/2 * 2 ^ ((ratExp n d - 52).toNat) ≤ (n:ℚ)/d * eps := by
      rw [hhalfU]
      exact hepsbound
    have hcancel : ((n:ℚ)/d) / 2 ^ ((ratExp n d - 52).toNat)
        * 2 ^ ((ratExp n d - 52).toNat) = (n:ℚ)/d :=
      div_mul_cancel₀ _ (ne_of_gt hpowu0)
    have hval : pairVal (intRHE n (d * 2 ^ (ratExp n d - 52).toNat)
          * 2 ^ (ratExp n d - 52).toNat, 1)
        = ((intRHE n (d * 2 ^ (ratExp n d - 52).toNat) : ℤ) : ℚ)
          * 2 ^ ((ratExp n d - 52).toNat) := by
      rw [pairVal]
      push_cast
      ring
    rw [hval]
    constructor
    · have h2 := mul_le_mul_of_nonneg_right hlo (le_of_lt hpowu0)
      rw [sub_mul, hcancel] at h2
      nlinarith [hkeyU]
    · have h2 := mul_le_mul_of_nonneg_right hhi (le_of_lt hpowu0)
      rw [add_mul, hcancel] at h2
      nlinarith [hkeyU]

/-- A pair with positive numerator and denominator has positive value. -/
theorem pairVal_pos (x : ℤ × ℤ) (h1 : 0 < x.1) (h2 : 0 < x.2) : 0 < pairVal x :=
  div_pos (by exact_mod_cast h1) (by exact_mod_cast h2)

/-- A pair with nonnegative numerator and positive denominator has nonnegative value. -/
theorem pairVal_nonneg (x : ℤ × ℤ) (h1 : 0 ≤ x.1) (h2 : 0 < x.2) : 0 ≤ pairVal x :=
  div_nonneg (by exact_mod_cast h1) (by exact_mod_cast (le_of_lt h2))

/-- A positive value with positive denominator forces a positive numerator. -/
theorem pairVal_num_pos (x : ℤ × ℤ) (h : 0 < pairVal x) (hd : 0 < x.2) : 0 < x.1 := by
  have hx2 : (0:ℚ) < (x.2:ℚ) := by exact_mod_cast hd
  have h1 : (0:ℚ) < pairVal x * x.2 := mul_pos h hx2
  rw [pairVal, div_mul_cancel₀ _ (ne_of_gt hx2)] at h1
  exact_mod_cast h1

/-- A nonnegative value with positive denominator forces a nonnegative numerator. -/
theorem pairVal_num_nonneg (x : ℤ × ℤ) (h : 0 ≤ pairVal x) (hd : 0 < x.2) : 0 ≤ x.1 := by
  have hx2 : (0:ℚ) < (x.2:ℚ) := by exact_mod_cast hd
  have h1 : (0:ℚ) ≤ pairVal x * x.2 := mul_nonneg h (le_of_lt hx2)
  rw [pairVal, div_mul_cancel₀ _ (ne_of_gt hx2)] at h1
  exact_mod_cast h1

/-- The rounding-error unit is positive. -/
theorem eps_pos : (0:ℚ) < eps := by rw [eps]; positivity

/-- The rounding-error unit is below one half. -/
theorem eps_small : eps < 1/2 := by rw [eps]; norm_num

/-- Rounding zero gives zero. -/
theorem flPair_zero_eq (d : ℤ) : flPair 0 d = (0, 1) := by rw [flPair, if_pos rfl]

/-- Relative-error bounds for `flPair` on nonnegative input, with sign facts on the output. -/
theorem flPair_bounds (n d : ℤ) (hn : 0 ≤ n) (hd : 0 < d) :
    (n:ℚ)/d * (1 - eps) ≤ pairVal (flPair n d)
    ∧ pairVal (flPair n d) ≤ (n:ℚ)/d * (1 + eps)
    ∧ 0 ≤ (flPair n d).1 ∧ 0 < (flPair n d).2 := by
  by_cases h0 : n = 0
  · subst h0
    rw [flPair_zero_eq]
    constructor
    · rw [pairVal]
      norm_num
    · constructor
      · rw [pairVal]
        norm_num
      · norm_num
  · have hn' : 0 < n := by omega
    have hflp : flPair n d = flPairPos n d := by
      rw [flPair, if_neg h0, if_neg (by omega)]
    obtain ⟨hl, hu⟩ := flPairPos_bounds n d hn' hd
    rw [hflp]
    refine ⟨hl, hu, ?_, flPairPos_den_pos n d⟩
    have hv : 0 < pairVal (flPairPos n d) := by
      have hq0 : (0:ℚ) < (n:ℚ)/d := by
        have : (0:ℚ) < (n:ℚ) := by exact_mod_cast hn'
        have : (0:ℚ) < (d:ℚ) := by exact_mod_cast hd
        positivity
      nlinarith [eps_pos, eps_small, hl, hq0]
    exact le_of_lt (pairVal_num_pos _ hv (flPairPos_den_pos n d))

/-- Relative-error bounds for binary64 addition of a positive and a nonnegative value. -/
theorem flAdd_bounds (x y : ℤ × ℤ) (hx1 : 0 < x.1) (hx2 : 0 < x.2)
    (hy1 : 0 ≤ y.1) (hy2 : 0 < y.2) :
    (pairVal x + pairVal y) * (1 - eps) ≤ pairVal (flAdd x y)
    ∧ pairVal (flAdd x y) ≤ (pairVal x + pairVal y) * (1 + eps)
    ∧ 0 < (flAdd x y).1 ∧ 0 < (flAdd x y).2 := by
  have hnum : 0 < x.1 * y.2 + y.1 * x.2 := by positivity
  have hden : 0 < x.2 * y.2 := by positivity
  have hx2Q : (0:ℚ) < (x.2:ℚ) := by exact_mod_cast hx2
  have hy2Q : (0:ℚ) < (y.2:ℚ) := by exact_mod_cast hy2
  have hid : ((x.1 * y.2 + y.1 * x.2 : ℤ):ℚ) / ((x.2 * y.2 : ℤ):ℚ) = pairVal x + pairVal y := by
    rw [pairVal, pairVal]
    push_cast
    field_simp
  obtain ⟨hl, hu, hnn, hdp⟩ := flPair_bounds (x.1 * y.2 + y.1 * x.2) (x.2 * y.2) (le_of_lt hnum) hden
  rw [hid] at hl hu
  have hsum : 0 < pairVal x + pairVal y := by
    have h1 := pairVal_pos x hx1 hx2
    have h2 := pairVal_nonneg y hy1 hy2
    linarith
  rw [flAdd]
  refine ⟨hl, hu, ?_, hdp⟩
  have hv : 0 < pairVal (flPair (x.1 * y.2 + y.1 * x.2) (x.2 * y.2)) := by
    nlinarith [eps_pos, eps_small]
  exact pairVal_num_pos _ hv hdp

/-- Relative-error bounds for binary64 division of a nonnegative value by a positive one. -/
theorem flDiv_bounds (x y : ℤ × ℤ) (hx1 : 0 ≤ x.1) (hx2 : 0 < x.2)
    (hy1 : 0 < y.1) (hy2 : 0 < y.2) :
    pairVal x / pairVal y * (1 - eps) ≤ pairVal (flDiv x y)
    ∧ pairVal (flDiv x y) ≤ pairVal x / pairVal y * (1 + eps)
    ∧ 0 ≤ (flDiv x y).1 ∧ 0 < (flDiv x y).2 := by
  have hnum : 0 ≤ x.1 * y.2 := by positivity
  have hden : 0 < x.2 * y.1 := by positivity
  have hx2Q : (0:ℚ) < (x.2:ℚ) := by exact_mod_cast hx2
  have hy1Q : (0:ℚ) < (y.1:ℚ) := by exact_mod_cast hy1
  have hy2Q : (0:ℚ) < (y.2:ℚ) := by exact_mod_cast hy2
  have hid : ((x.1 * y.2 : ℤ):ℚ) / ((x.2 * y.1 : ℤ):ℚ) = pairVal x / pairVal y := by
    rw [pairVal, pairVal]
    push_cast
    field_simp
  obtain ⟨hl, hu, hnn, hdp⟩ := flPair_bounds (x.1 * y.2) (x.2 * y.1) hnum hden
  rw [hid] at hl hu
  rw [flDiv]
  exact ⟨hl, hu, hnn, hdp⟩

/-- The numerator of the double constant 4.2 is positive. -/
theorem fl4_2_num_pos : (0:ℤ) < fl4_2.1 := by norm_num [fl4_2]

/-- The denominator of the double constant 4.2 is positive. -/
theorem fl4_2_den_pos : (0:ℤ) < fl4_2.2 := by norm_num [fl4_2]

/-- The exact rational value of the double constant 4.2. -/
theorem fl4_2_val : pairVal fl4_2 = 4728779608739021/1125899906842624 := by
  rw [pairVal, fl4_2]
  norm_num

set_option maxHeartbeats 2000000 in
/-- The float64 `Duration.Minutes()` of an at-least-30-minute duration lies within three rounding errors of the exact minute count. -/
theorem goMinutes_bounds (d : ℤ) (h30 : 1800000000000 ≤ d) :
    ((d:ℚ)/60000000000) * (1 - eps)^3 ≤ pairVal (goMinutes d)
    ∧ pairVal (goMinutes d) ≤ ((d:ℚ)/60000000000) * (1 + eps)^3
    ∧ 0 < (goMinutes d).1 ∧ 0 < (goMinutes d).2 := by
  have hd0 : (0:ℤ) ≤ d := by omega
  have htdiv : Int.tdiv d 60000000000 = d / 60000000000 :=
    Int.tdiv_eq_ediv hd0 (by norm_num)
  have htmod : Int.tmod d 60000000000 = d % 60000000000 :=
    Int.tmod_eq_emod hd0 (by norm_num)
  have hmn30 : 30 ≤ Int.tdiv d 60000000000 := by
    rw [htdiv, Int.le_ediv_iff_mul_le (by norm_num : (0:ℤ) < 60000000000)]
    linarith
  have hns0 : 0 ≤ Int.tmod d 60000000000 := by
    rw [htmod]
    exact Int.emod_nonneg d (by norm_num)
  have hid : ((Int.tdiv d 60000000000 : ℤ):ℚ) + ((Int.tmod d 60000000000 : ℤ):ℚ)/60000000000
      = (d:ℚ)/60000000000 := by
    have hz : (60000000000:ℤ) * (d / 60000000000) + d % 60000000000 = d :=
      Int.ediv_add_emod d 60000000000
    have hQ : (60000000000:ℚ) * ((Int.tdiv d 60000000000 : ℤ):ℚ)
        + ((Int.tmod d 60000000000 : ℤ):ℚ) = (d:ℚ) := by
      rw [htdiv, htmod]
      exact_mod_cast hz
    field_simp
    linarith
  obtain ⟨hal, hau, han, had⟩ := flPair_bounds (Int.tdiv d 60000000000) 1 (by omega) (by norm_num)
  norm_num at hal hau
  obtain ⟨hfl, hfu, hfn, hfd⟩ := flPair_bounds (Int.tmod d 60000000000) 1 hns0 (by norm_num)
  norm_num at hfl hfu
  obtain ⟨hbl, hbu, hbn, hbd⟩ := flDiv_bounds (flPair (Int.tmod d 60000000000) 1)
    ((60000000000:ℤ), (1:ℤ)) hfn hfd (by norm_num) (by norm_num)
  have hcv : pairVal ((60000000000:ℤ), (1:ℤ)) = 60000000000 := by
    rw [pairVal]
    norm_num
  rw [hcv] at hbl hbu
  have hmnQ : (30:ℚ) ≤ ((Int.tdiv d 60000000000 : ℤ):ℚ) := by exact_mod_cast hmn30
  have hnsQ : (0:ℚ) ≤ ((Int.tmod d 60000000000 : ℤ):ℚ) := by exact_mod_cast hns0
  have hva : 0 < pairVal (flPair (Int.tdiv d 60000000000) 1) := by
    nlinarith [eps_pos, eps_small]
  have hna : 0 < (flPair (Int.tdiv d 60000000000) 1).1 := pairVal_num_pos _ hva had
  obtain ⟨hsl, hsu, hsn, hsd⟩ := flAdd_bounds (flPair (Int.tdiv d 60000000000) 1)
    (flDiv (flPair (Int.tmod d 60000000000) 1) ((60000000000:ℤ), (1:ℤ))) hna had hbn hbd
  have hvfp0 : 0 ≤ pairVal (flPair (Int.tmod d 60000000000) 1) := pairVal_nonneg _ hfn hfd
  have hvb0 : 0 ≤ pairVal (flDiv (flPair (Int.tmod d 60000000000) 1) ((60000000000:ℤ), (1:ℤ))) :=
    pairVal_nonneg _ hbn hbd
  -- lower chain for the fractional term
  have hBl : ((Int.tmod d 60000000000 : ℤ):ℚ)/60000000000 * (1 - eps)^2
      ≤ pairVal (flDiv (flPair (Int.tmod d 60000000000) 1) ((60000000000:ℤ), (1:ℤ))) := by
    have h1 : ((Int.tmod d 60000000000 : ℤ):ℚ) * (1 - eps) / 60000000000
        ≤ pairVal (flPair (Int.tmod d 60000000000) 1) / 60000000000 :=
      div_le_div_of_nonneg_right hfl (by norm_num)
    have h2 := mul_le_mul_of_nonneg_right h1 (by nlinarith [eps_pos, eps_small] : (0:ℚ) ≤ 1 - eps)
    calc ((Int.tmod d 60000000000 : ℤ):ℚ)/60000000000 * (1 - eps)^2
        = ((Int.tmod d 60000000000 : ℤ):ℚ) * (1 - eps) / 60000000000 * (1 - eps) := by ring
      _ ≤ pairVal (flPair (Int.tmod d 60000000000) 1) / 60000000000 * (1 - eps) := h2
      _ ≤ _ := hbl
  have hBu : pairVal (flDiv (flPair (Int.tmod d 60000000000) 1) ((60000000000:ℤ), (1:ℤ)))
      ≤ ((Int.tmod d 60000000000 : ℤ):ℚ)/60000000000 * (1 + eps)^2 := by
    have h1 : pairVal (flPair (Int.tmod d 60000000000) 1) / 60000000000
        ≤ ((Int.tmod d 60000000000 : ℤ):ℚ) * (1 + eps) / 60000000000 :=
      div_le_div_of_nonneg_right hfu (by norm_num)
    have h2 := mul_le_mul_of_nonneg_right h1 (by nlinarith [eps_pos] : (0:ℚ) ≤ 1 + eps)
    calc pairVal (flDiv (flPair (Int.tmod d 60000000000) 1) ((60000000000:ℤ), (1:ℤ)))
        ≤ pairVal (flPair (Int.tmod d 60000000000) 1) / 60000000000 * (1 + eps) := hbu
      _ ≤ ((Int.tmod d 60000000000 : ℤ):ℚ) * (1 + eps) / 60000000000 * (1 + eps) := h2
      _ = ((Int.tmod d 60000000000 : ℤ):ℚ)/60000000000 * (1 + eps)^2 := by ring
  rw [show goMinutes d = flAdd (flPair (Int.tdiv d 60000000000) 1)
    (flDiv (flPair (Int.tmod d 60000000000) 1) ((60000000000:ℤ), (1:ℤ))) from rfl]
  set A := pairVal (flPair (Int.tdiv d 60000000000) 1) with hsetA
  set B := pairVal (flDiv (flPair (Int.tmod d 60000000000) 1) ((60000000000:ℤ), (1:ℤ)))
    with hsetB
  set S := pairVal (flAdd (flPair (Int.tdiv d 60000000000) 1)
    (flDiv (flPair (Int.tmod d 60000000000) 1) ((60000000000:ℤ), (1:ℤ)))) with hsetS
  set m := ((Int.tdiv d 60000000000 : ℤ):ℚ) with hsetm
  set F := ((Int.tmod d 60000000000 : ℤ):ℚ)/60000000000 with hsetF
  have hF0 : 0 ≤ F := div_nonneg hnsQ (by norm_num)
  have he1 : (0:ℚ) < 1 - eps := by nlinarith [eps_pos, eps_small]
  have he2 : (0:ℚ) < 1 + eps := by nlinarith [eps_pos]
  have hm0 : (0:ℚ) ≤ m := by linarith
  refine ⟨?_, ?_, hsn, hsd⟩
  · have hAB : (m + F) * (1 - eps)^2 ≤ A + B := by
      nlinarith [hal, hBl, eps_pos, eps_small]
    calc ((d:ℚ)/60000000000) * (1 - eps)^3 = (m + F) * (1 - eps)^3 := by rw [hid]
      _ = (m + F) * (1 - eps)^2 * (1 - eps) := by ring
      _ ≤ (A + B) * (1 - eps) := mul_le_mul_of_nonneg_right hAB (le_of_lt he1)
      _ ≤ S := hsl
  · have hAB : A + B ≤ (m + F) * (1 + eps)^2 := by
      nlinarith [hau, hBu, eps_pos]
    calc S ≤ (A + B) * (1 + eps) := hsu
      _ ≤ (m + F) * (1 + eps)^2 * (1 + eps) :=
        mul_le_mul_of_nonneg_right hAB (le_of_lt he2)
      _ = (m + F) * (1 + eps)^3 := by ring
      _ = ((d:ℚ)/60000000000) * (1 + eps)^3 := by rw [hid]

/-- Truncating a float value that is at least one yields at least one. -/
theorem one_le_truncPair (x : ℤ × ℤ) (h1 : 1 ≤ pairVal x) (hd : 0 < x.2) :
    1 ≤ truncPair x := by
  have hx2Q : (0:ℚ) < (x.2:ℚ) := by exact_mod_cast hd
  have hge : x.2 ≤ x.1 := by
    have := (le_div_iff₀ hx2Q).mp h1
    rw [one_mul] at this
    exact_mod_cast this
  rw [truncPair, Int.tdiv_eq_ediv (by omega) (by omega),
    Int.le_ediv_iff_mul_le hd, one_mul]
  exact hge

/-- For nonnegative values, Go truncation toward zero is the floor. -/
theorem truncPair_eq_floor (x : ℤ × ℤ) (h1 : 0 ≤ x.1) (h2 : 0 < x.2) :
    truncPair x = ⌊pairVal x⌋ := by
  rw [truncPair, Int.tdiv_eq_ediv h1 (le_of_lt h2), pairVal]
  have hN : ((x.2.toNat : ℕ) : ℤ) = x.2 := Int.toNat_of_nonneg (le_of_lt h2)
  rw [show ((x.2:ℚ)) = ((x.2.toNat : ℕ):ℚ) by exact_mod_cast hN.symm,
    Rat.floor_intCast_div_natCast, hN]

set_option maxHeartbeats 2000000 in
/-- The float64 quotient `Minutes()/4.2` lies within four rounding errors of the exact quotient by the double constant 4.2. -/
theorem stepsFinal_bounds (d : ℤ) (h30 : 1800000000000 ≤ d) :
    ((d:ℚ)/60000000000) / pairVal fl4_2 * (1 - eps)^4
      ≤ pairVal (flDiv (goMinutes d) fl4_2)
    ∧ pairVal (flDiv (goMinutes d) fl4_2)
      ≤ ((d:ℚ)/60000000000) / pairVal fl4_2 * (1 + eps)^4
    ∧ 0 ≤ (flDiv (goMinutes d) fl4_2).1 ∧ 0 < (flDiv (goMinutes d) fl4_2).2 := by
  obtain ⟨hgl, hgu, hgn, hgd⟩ := goMinutes_bounds d h30
  obtain ⟨hql, hqu, hqn, hqd⟩ := flDiv_bounds (goMinutes d) fl4_2 (le_of_lt hgn) hgd
    fl4_2_num_pos fl4_2_den_pos
  have hc0 : (0:ℚ) < pairVal fl4_2 := by rw [fl4_2_val]; norm_num
  have he1 : (0:ℚ) < 1 - eps := by nlinarith [eps_pos, eps_small]
  have he2 : (0:ℚ) < 1 + eps := by nlinarith [eps_pos]
  set G := pairVal (goMinutes d) with hsetG
  set M := (d:ℚ)/60000000000 with hsetM
  set c := pairVal fl4_2 with hsetc
  refine ⟨?_, ?_, hqn, hqd⟩
  · have h1 : M * (1 - eps)^3 / c ≤ G / c := div_le_div_of_nonneg_right hgl (le_of_lt hc0)
    calc M / c * (1 - eps)^4 = M * (1 - eps)^3 / c * (1 - eps) := by ring
      _ ≤ G / c * (1 - eps) := mul_le_mul_of_nonneg_right h1 (le_of_lt he1)
      _ ≤ pairVal (flDiv (goMinutes d) fl4_2) := hql
  · have h1 : G / c ≤ M * (1 + eps)^3 / c := div_le_div_of_nonneg_right hgu (le_of_lt hc0)
    calc pairVal (flDiv (goMinutes d) fl4_2) ≤ G / c * (1 + eps) := hqu
      _ ≤ M * (1 + eps)^3 / c * (1 + eps) := mul_le_mul_of_nonneg_right h1 (le_of_lt he2)
      _ = M / c * (1 + eps)^4 := by ring

/-! ### Claim theorems -/

/-- C3 counterexample: at a 37.8-minute window the program returns 8 —
the float64 quotient `Minutes()/4.2` evaluates to just below 9 and
truncates down — while `floor(duration_in_minutes / 4.2)` is exactly 9,
so the claimed universal final-branch formula is false of the code. -/
theorem steps_float_deviates_from_floor :
    steps 0 2268000000000 = 8
    ∧ ⌊(2268000000000:ℚ)/60000000000/4.2⌋ = 9
    ∧ steps 0 2268000000000 ≠ ⌊(2268000000000:ℚ)/60000000000/4.2⌋ := by
  have h9 : ⌊(2268000000000:ℚ)/60000000000/4.2⌋ = 9 := by
    have h : (2268000000000:ℚ)/60000000000/4.2 = 9 := by norm_num
    rw [h]
    exact Int.floor_intCast 9
  have h8 : steps 0 2268000000000 = 8 := by decide
  refine ⟨h8, h9, ?_⟩
  rw [h8, h9]
  decide

set_option maxHeartbeats 2000000 in
/-- C3 (amended): the Resolution Selector implements the first-match
policy: an explicit step > 0 is returned unchanged; otherwise a duration
below 15 minutes yields 1; otherwise below 30 minutes yields 3;
otherwise it returns the float64 computation `int(Minutes()/4.2)`, which
always lies within one of `floor(duration_in_minutes / 4.2)` for int64
durations but can fall below it (see the counterexample); the concrete
values hold: `step=5` with any duration gives 5, a 10-minute duration
gives 1, a 20-minute duration gives 3, and a 120-minute duration
gives 28. The `flPair 21 5 = fl4_2` conjunct checks that the modelled
double constant is the correctly rounded binary64 value of 4.2. -/
theorem steps_first_match_policy :
    (∀ s d : Int, 0 < s → steps s d = s)
    ∧ (∀ s d : Int, s ≤ 0 → d < 15 * minuteNs → steps s d = 1)
    ∧ (∀ s d : Int, s ≤ 0 → 15 * minuteNs ≤ d → d < 30 * minuteNs → steps s d = 3)
    ∧ (∀ s d : Int, s ≤ 0 → 30 * minuteNs ≤ d → d < 9223372036854775808 →
        ⌊(d:ℚ)/60000000000/4.2⌋ - 1 ≤ steps s d
        ∧ steps s d ≤ ⌊(d:ℚ)/60000000000/4.2⌋ + 1)
    ∧ (∀ d : Int, steps 5 d = 5)
    ∧ steps 0 (10 * minuteNs) = 1
    ∧ steps 0 (20 * minuteNs) = 3
    ∧ steps 0 (120 * minuteNs) = 28
    ∧ flPair 21 5 = fl4_2 := by
  refine ⟨fun s d hs => ?_, fun s d hs hd => ?_, fun s d hs hd1 hd2 => ?_,
    fun s d hs h30m h63 => ?_, fun d => ?_, by decide, by decide, by decide, by decide⟩
  · simp [steps, hs]
  · simp [steps, not_lt.mpr hs, hd]
  · simp [steps, not_lt.mpr hs, not_lt.mpr hd1, hd2]
  · have h30 : 1800000000000 ≤ d := by
      simp [minuteNs] at h30m
      omega
    have hstep : steps s d = truncPair (flDiv (goMinutes d) fl4_2) := by
      rw [steps, if_neg (by omega), if_neg (by simp [minuteNs]; omega),
        if_neg (by simp [minuteNs]; omega)]
    obtain ⟨hql, hqu, hqn, hqd⟩ := stepsFinal_bounds d h30
    rw [hstep, truncPair_eq_floor _ hqn hqd]
    have hdQ : (d:ℚ) < 9223372036854775808 := by exact_mod_cast h63
    have hdQ0 : (1800000000000:ℚ) ≤ (d:ℚ) := by exact_mod_cast h30
    set X := (d:ℚ)/60000000000/4.2 with hsetX
    have hX0 : 0 ≤ X := by
      rw [hsetX]
      positivity
    have hX40 : X < 40000000 := by
      rw [hsetX, div_div, div_lt_iff₀ (by norm_num : (0:ℚ) < 60000000000 * 4.2)]
      norm_num
      linarith
    have hMX : (d:ℚ)/60000000000 = X * 4.2 := by
      rw [hsetX]
      field_simp
      ring
    have hKl : (1:ℚ) - 1/1000000000 ≤ 4.2 / pairVal fl4_2 * (1 - eps)^4 := by
      rw [fl4_2_val, eps]
      norm_num
    have hKu : 4.2 / pairVal fl4_2 * (1 + eps)^4 ≤ (1:ℚ) + 1/1000000000 := by
      rw [fl4_2_val, eps]
      norm_num
    have hlowQ : X - 1 ≤ pairVal (flDiv (goMinutes d) fl4_2) := by
      have e1 : (d:ℚ)/60000000000 / pairVal fl4_2 * (1 - eps)^4
          = X * (4.2 / pairVal fl4_2 * (1 - eps)^4) := by
        rw [hMX]
        ring
      have e2 : X * (4.2 / pairVal fl4_2 * (1 - eps)^4) ≥ X * (1 - 1/1000000000) :=
        mul_le_mul_of_nonneg_left hKl hX0
      have e3 : X * (1 - 1/1000000000) ≥ X - 1 := by nlinarith
      rw [e1] at hql
      linarith
    have hhiQ : pairVal (flDiv (goMinutes d) fl4_2) ≤ X + 1 := by
      have e1 : (d:ℚ)/60000000000 / pairVal fl4_2 * (1 + eps)^4
          = X * (4.2 / pairVal fl4_2 * (1 + eps)^4) := by
        rw [hMX]
        ring
      have e2 : X * (4.2 / pairVal fl4_2 * (1 + eps)^4) ≤ X * (1 + 1/1000000000) :=
        mul_le_mul_of_nonneg_left hKu hX0
      have e3 : X * (1 + 1/1000000000) ≤ X + 1 := by nlinarith
      rw [e1] at hqu
      linarith
    have hfs : ⌊X - 1⌋ = ⌊X⌋ - 1 := Int.floor_sub_one X
    have hfa : ⌊X + 1⌋ = ⌊X⌋ + 1 := Int.floor_add_one X
    constructor
    · calc ⌊X⌋ - 1 = ⌊X - 1⌋ := hfs.symm
      _ ≤ ⌊pairVal (flDiv (goMinutes d) fl4_2)⌋ := Int.floor_le_floor hlowQ
    · calc ⌊pairVal (flDiv (goMinutes d) fl4_2)⌋ ≤ ⌊X + 1⌋ := Int.floor_le_floor hhiQ
      _ = ⌊X⌋ + 1 := hfa
  · simp [steps]

/-- Witness for C3 at concrete inputs. -/
theorem steps_first_match_policy_witness :
    steps 0 (10 * minuteNs) = 1
    ∧ steps 0 (20 * minuteNs) = 3
    ∧ (⌊((120 * minuteNs : ℤ):ℚ)/60000000000/4.2⌋ - 1 ≤ steps 0 (120 * minuteNs)
      ∧ steps 0 (120 * minuteNs) ≤ ⌊((120 * minuteNs : ℤ):ℚ)/60000000000/4.2⌋ + 1) :=
  ⟨steps_first_match_policy.2.1 0 (10 * minuteNs) (by decide) (by decide),
   steps_first_match_policy.2.2.1 0 (20 * minuteNs) (by decide) (by decide) (by decide),
   steps_first_match_policy.2.2.2.1 0 (120 * minuteNs) (by decide) (by decide) (by decide)⟩

set_option maxHeartbeats 1000000 in
/-- C7: for every explicit-step input and every window duration the
Resolution Selector returns an integer that is at least 1 — the computed
step is never 0, so no clamping branch is needed: the short-duration
branches return 1 or 3, and in the final branch the float64 quotient is
at least `30/4.2` shrunk by at most four relative rounding errors, which
stays above 1. -/
theorem steps_always_positive (s d : Int) : 1 ≤ steps s d := by
  rw [steps]
  split
  · omega
  split
  · norm_num
  split
  · norm_num
  · rename_i h1 h2 h3
    have h30 : 1800000000000 ≤ d := by
      simp [minuteNs] at h3
      omega
    obtain ⟨hql, hqu, hqn, hqd⟩ := stepsFinal_bounds d h30
    apply one_le_truncPair _ _ hqd
    have hM : (30:ℚ) ≤ (d:ℚ)/60000000000 := by
      rw [le_div_iff₀ (by norm_num : (0:ℚ) < 60000000000)]
      have h : (1800000000000:ℚ) ≤ (d:ℚ) := by exact_mod_cast h30
      linarith
    have hcpos : (0:ℚ) < pairVal fl4_2 := by rw [fl4_2_val]; norm_num
    calc (1:ℚ) ≤ 30 / pairVal fl4_2 * (1 - eps)^4 := by
          rw [fl4_2_val, eps]
          norm_num
      _ ≤ (d:ℚ)/60000000000 / pairVal fl4_2 * (1 - eps)^4 := by
          apply mul_le_mul_of_nonneg_right
          · exact div_le_div_of_nonneg_right hM (le_of_lt hcpos)
          · positivity
      _ ≤ pairVal (flDiv (goMinutes d) fl4_2) := hql

/-- C5 counterexample: on an empty SeriesSet the plotting-legend
renderer does not emit nothing — it emits a legend statement with an
empty label list. -/
theorem legend_empty_emits_line :
    matplotlibLegendWriter [] = "plot.legend([], loc='upper left')\n"
    ∧ matplotlibLegendWriter [] ≠ "" := by
  constructor
  · rfl
  · decide

/-- C5 (amended): for an empty SeriesSet the tabular body, tabular
header and plotting-data renderers emit nothing; the plotting-legend
renderer emits exactly one legend statement with an empty label list.
None of them signals an error (in the source all four unconditionally
return nil). -/
theorem renderers_empty_input :
    (∀ uxdate : String → String, csvWriter uxdate [] = "")
    ∧ csvHeaderWriter [] = ""
    ∧ matplotlibWriter [] = ""
    ∧ matplotlibLegendWriter [] = "plot.legend([], loc='upper left')\n" :=
  ⟨fun _ => rfl, rfl, rfl, rfl⟩

/-- C6 counterexample: the canonicalizer maps the LabelSet consisting of
the single binding `__name__ = ""` to the empty string, yet that
LabelSet does contain the reserved base-name key — contradicting the
claim that an empty canonical name can only arise from a LabelSet with
neither the reserved key nor any other label (such a LabelSet is empty
and in fact canonicalizes to the literal braces, not to the empty
string). -/
theorem metricName_empty_string_with_name_key :
    metricName [("__name__", "")] = ""
    ∧ "__name__" ∈ ([("__name__", "")] : List (String × String)).map Prod.fst
    ∧ metricName [] = "\x7b\x7d" := by
  refine ⟨by decide, by decide, rfl⟩

/-- C6 (amended): for a LabelSet with pairwise-distinct keys, the
canonicalizer returns the empty string exactly when the LabelSet
consists of the single reserved binding `__name__` with empty value. -/
theorem metricName_empty_string_iff (m : List (String × String))
    (h : (m.map Prod.fst).Nodup) :
    metricName m = "" ↔ m = [("__name__", "")] := by
  match m with
  | [] =>
    constructor
    · intro he
      exact absurd he (by decide)
    · intro he
      cases he
  | [(k, v)] =>
    by_cases hk : k = "__name__"
    · subst hk
      have hi : metricName_inner [("__name__", v)] = [] := rfl
      have ho : metricName_out [("__name__", v)] = v := by
        simp [metricName_out]
      have hval : metricName [("__name__", v)] = v := by
        rw [metricName]
        simp [hi, ho]
      rw [hval]
      simp
    · have hi : metricName_inner [(k, v)] = [k ++ "=\"" ++ v ++ "\""] := by
        simp [metricName_inner, hk]
      have ho : metricName_out [(k, v)] = "" := by
        simp [metricName_out, hk]
      have hinner : metricName [(k, v)]
          = "" ++ "\x7b" ++ String.intercalate ","
              (List.insertionSort strLe [k ++ "=\"" ++ v ++ "\""]) ++ "\x7d" := by
        rw [metricName]
        simp [hi, ho]
      rw [hinner]
      constructor
      · intro he
        exact absurd he (brace_append_ne_empty _ _)
      · intro he
        simp only [List.cons.injEq, Prod.mk.injEq] at he
        exact absurd he.1.1 hk
  | x :: y :: t =>
    have hxy : x.1 ≠ y.1 := by
      simp only [List.map_cons, List.nodup_cons, List.mem_cons] at h
      exact fun he => h.1 (Or.inl he)
    have hinner : metricName_inner (x :: y :: t) ≠ [] := by
      intro hzero
      rw [metricName_inner, List.map_eq_nil_iff, List.filter_eq_nil_iff] at hzero
      have hx' : x.1 = "__name__" := by simpa using hzero x (by simp)
      have hy' : y.1 = "__name__" := by simpa using hzero y (by simp)
      exact hxy (hx'.trans hy'.symm)
    have hne : metricName (x :: y :: t) ≠ "" := by
      rw [metricName]
      rw [if_neg (by simp), if_neg (by simpa [List.length_eq_zero] using hinner)]
      exact brace_append_ne_empty _ _
    constructor
    · intro he
      exact absurd he hne
    · intro he
      exact absurd he (by simp)

/-- Witness for C6 at a concrete LabelSet. -/
theorem metricName_empty_string_iff_witness :
    metricName [("__name__", "")] = "" ↔ [("__name__", "")] = [("__name__", "")] :=
  metricName_empty_string_iff [("__name__", "")] (by decide)

/-- A key of the map after a Go-style insert is the inserted key or a
key that was already present. -/
theorem mapInsert_keys {m : List (String × String)} {k₀ v k : String}
    (hk : k ∈ (mapInsert m k₀ v).map Prod.fst) :
    k = k₀ ∨ k ∈ m.map Prod.fst := by
  rw [mapInsert] at hk
  by_cases hany : m.any (fun kv => kv.1 == k₀)
  · rw [if_pos hany] at hk
    rw [List.map_map, List.mem_map] at hk
    obtain ⟨kv, hkv, hfst⟩ := hk
    by_cases he : kv.1 = k₀
    · left
      simp [Function.comp, he] at hfst
      exact hfst.symm
    · right
      simp only [Function.comp, beq_iff_eq, he, if_false] at hfst
      exact hfst ▸ List.mem_map_of_mem Prod.fst hkv
  · rw [if_neg hany, List.map_append, List.mem_append] at hk
    rcases hk with hk | hk
    · exact Or.inr hk
    · simp at hk
      exact Or.inl hk

/-- On well-shaped input the extraction loop of `Query` never panics and
computes the total extraction. -/
theorem Query_values_eq_pure (values : List (List JVal)) (m : List (String × String))
    (hshape : ∀ vals ∈ values, ∃ t v, vals = [JVal.num t, JVal.str v]) :
    Query_values values m = some (pureValues values m) := by
  induction values generalizing m with
  | nil => rfl
  | cons vals rest ih =>
    obtain ⟨t, v, hv⟩ := hshape vals (List.mem_cons_self _ _)
    subst hv
    simp only [Query_values, pureValues]
    exact ih _ (fun x hx => hshape x (List.mem_cons_of_mem _ hx))

/-- Every key of the extracted sample map comes from a formatted
timestamp of one of the (well-shaped) value pairs, or from the initial
accumulator. -/
theorem pureValues_keys (values : List (List JVal)) (m : List (String × String))
    (hshape : ∀ vals ∈ values, ∃ t v, vals = [JVal.num t, JVal.str v]) :
    ∀ k ∈ (pureValues values m).map Prod.fst,
      k ∈ m.map Prod.fst ∨ ∃ t, k = fmtNoFrac t ∧ ∃ v, [JVal.num t, JVal.str v] ∈ values := by
  induction values generalizing m with
  | nil => exact fun k hk => Or.inl hk
  | cons vals rest ih =>
    obtain ⟨t, v, hv⟩ := hshape vals (List.mem_cons_self _ _)
    subst hv
    intro k hk
    simp only [pureValues] at hk
    rcases ih (mapInsert m (fmtNoFrac t) v)
        (fun x hx => hshape x (List.mem_cons_of_mem _ hx)) k hk with hin | ⟨t', ht', v', hv'⟩
    · rcases mapInsert_keys hin with he | hm
      · exact Or.inr ⟨t, he, v, List.mem_cons_self _ _⟩
      · exact Or.inl hm
    · exact Or.inr ⟨t', ht', v', List.mem_cons_of_mem _ hv'⟩

/-- The duplicated extraction loop of `IcpQuery` computes the same
function as the one of `Query`. -/
theorem IcpQuery_values_eq (values : List (List JVal)) (m : List (String × String)) :
    IcpQuery_values values m = Query_values values m := by
  induction values generalizing m with
  | nil => rfl
  | cons vals rest ih =>
    match vals with
    | [] => rfl
    | JVal.num t :: JVal.str v :: vrest =>
      simp only [IcpQuery_values, Query_values]
      exact ih _
    | JVal.num t :: JVal.num _ :: vrest => rfl
    | JVal.num t :: JVal.other :: vrest => rfl
    | [JVal.num t] => rfl
    | JVal.str _ :: _ => rfl
    | JVal.other :: _ => rfl

/-- The duplicated result-construction loop of `IcpQuery` computes the
same function as the one of `Query`. -/
theorem IcpQuery_results_eq (rs : List promResult) :
    IcpQuery_results rs = Query_results rs := by
  induction rs with
  | nil => rfl
  | cons res rest ih =>
    simp only [IcpQuery_results, Query_results, IcpQuery_values_eq, ih]

/-- The number of constructed series equals the number of response
series. -/
theorem Query_results_length (rs : List promResult) (out : List Result)
    (h : Query_results rs = some out) : out.length = rs.length := by
  induction rs generalizing out with
  | nil =>
    simp only [Query_results, Option.some.injEq] at h
    simp [← h]
  | cons res rest ih =>
    rw [Query_results] at h
    cases hvs : Query_values res.values [] with
    | none =>
      rw [hvs] at h
      simp at h
    | some vs =>
      rw [hvs] at h
      cases hrest : Query_results rest with
      | none =>
        rw [hrest] at h
        simp at h
      | some out' =>
        rw [hrest] at h
        simp only [Option.bind_eq_bind, Option.some_bind, Option.pure_def,
          Option.some.injEq] at h
        simp [← h, ih out' hrest]

/-- C2: the Metric Name Canonicalizer is invariant under permutation of
the iteration order of a LabelSet (keys pairwise distinct): the
non-reserved labels are formatted and sorted lexicographically before
joining, and the extraction of the reserved `__name__` binding does not
depend on where it sits, so any two iteration orders produce the same
display name. -/
theorem metricName_perm_invariant (l₁ l₂ : List (String × String))
    (hp : l₁.Perm l₂) (h : (l₁.map Prod.fst).Nodup) :
    metricName l₁ = metricName l₂ := by
  have hlen := hp.length_eq
  have hfil : l₁.filter (fun kv => kv.1 == "__name__")
      = l₂.filter (fun kv => kv.1 == "__name__") :=
    eq_of_perm_of_length_le_one (hp.filter _) (filter_key_length_le_one l₁ _ h)
  have hout : metricName_out l₁ = metricName_out l₂ := by
    rw [metricName_out, metricName_out, foldl_name_overwrite, foldl_name_overwrite, hfil]
  have hipm : (metricName_inner l₁).Perm (metricName_inner l₂) :=
    (hp.filter _).map _
  have hilen := hipm.length_eq
  have hsort : (metricName_inner l₁).insertionSort strLe
      = (metricName_inner l₂).insertionSort strLe :=
    insertionSort_eq_of_perm hipm
  rw [metricName, metricName, hlen, hout, hilen, hsort]

/-- Witness for C2 on two iteration orders of the same LabelSet. -/
theorem metricName_perm_invariant_witness :
    metricName [("__name__", "up"), ("job", "api"), ("instance", "h1")]
      = metricName [("instance", "h1"), ("__name__", "up"), ("job", "api")] :=
  metricName_perm_invariant
    [("__name__", "up"), ("job", "api"), ("instance", "h1")]
    [("instance", "h1"), ("__name__", "up"), ("job", "api")]
    (by decide) (by decide)

/-- C4: once a response is in hand, `Query` returns an error exactly
when the status is not 200 (the error then carries the status text and
the request URL), the body fails to decode, the decoded resultType is
not `matrix`, or the decoded result list is empty; on success it returns
one Series per response result, so a successfully returned SeriesSet is
never empty. -/
theorem Query_error_iff :
    (∀ (url : String) (sc : Nat) (st : String) (body : Option promResponse),
      (∃ e, Query_onResponse url sc st body = some (Except.error e)) ↔
        (sc ≠ 200 ∨ body = none ∨ ∃ resp, body = some resp ∧
          (resp.data.resultType ≠ "matrix" ∨ resp.data.result = [])))
    ∧ (∀ (url : String) (sc : Nat) (st : String) (body : Option promResponse),
        sc ≠ 200 →
        Query_onResponse url sc st body
          = some (Except.error (QueryError.requestFailed st url)))
    ∧ (∀ (url : String) (sc : Nat) (st : String) (body : Option promResponse)
        (rs : List Result),
        Query_onResponse url sc st body = some (Except.ok rs) →
        ∃ resp, body = some resp ∧ rs.length = resp.data.result.length ∧ rs ≠ []) := by
  refine ⟨fun url sc st body => ?_, fun url sc st body hsc => ?_,
    fun url sc st body rs hok => ?_⟩
  · by_cases hsc : sc = 200
    · rw [Query_onResponse.eq_def, if_neg (by simpa using hsc)]
      cases body with
      | none => simp [hsc]
      | some resp =>
        dsimp only
        by_cases hrt : resp.data.resultType = "matrix"
        · by_cases hres : resp.data.result = []
          · simp [hsc, hrt, hres]
          · have hlen : ¬ resp.data.result.length = 0 := by
              simpa [List.length_eq_zero] using hres
            rw [if_neg (by simpa using hrt), if_neg hlen]
            cases heq : Query_results resp.data.result with
            | none => simp [heq, hsc, hrt, hres]
            | some out => simp [heq, hsc, hrt, hres]
        · rw [if_pos (by simpa using hrt)]
          simp [hsc, hrt]
    · rw [Query_onResponse.eq_def, if_pos hsc]
      simp [hsc]
  · rw [Query_onResponse.eq_def, if_pos hsc]
  · rw [Query_onResponse.eq_def] at hok
    by_cases hsc : sc = 200
    · rw [if_neg (by simpa using hsc)] at hok
      cases body with
      | none => simp at hok
      | some resp =>
        dsimp only at hok
        by_cases hrt : resp.data.resultType = "matrix"
        · by_cases hlen : resp.data.result.length = 0
          · rw [if_neg (by simpa using hrt), if_pos hlen] at hok
            simp at hok
          · rw [if_neg (by simpa using hrt), if_neg hlen] at hok
            cases heq : Query_results resp.data.result with
            | none =>
              rw [heq] at hok
              simp at hok
            | some out =>
              rw [heq] at hok
              dsimp only at hok
              simp only [Option.some.injEq, Except.ok.injEq] at hok
              refine ⟨resp, rfl, ?_, ?_⟩
              · rw [← hok, Query_results_length resp.data.result out heq]
              · rw [← hok]
                intro hnil
                apply hlen
                rw [← Query_results_length resp.data.result out heq, hnil]
                rfl
        · rw [if_pos (by simpa using hrt)] at hok
          simp at hok
    · rw [if_pos hsc] at hok
      simp at hok

/-- Witness for C4: a concrete 200/matrix/one-series response decodes to
a one-element SeriesSet. -/
theorem Query_error_iff_witness :
    ∃ resp,
      (some (promResponse.mk "success" (promData.mk "matrix"
          [promResult.mk [("__name__", "up")] [[JVal.num 10, JVal.str "1"]]]))
        = some resp)
      ∧ ([Result.mk "up" [("10", "1")]].length = resp.data.result.length)
      ∧ [Result.mk "up" [("10", "1")]] ≠ [] :=
  Query_error_iff.2.2 "http://host" 200 "200 OK"
    (some (promResponse.mk "success" (promData.mk "matrix"
      [promResult.mk [("__name__", "up")] [[JVal.num 10, JVal.str "1"]]])))
    [Result.mk "up" [("10", "1")]] (by decide)

/-- C8: the two query clients decode identically — given the same HTTP
status and the same decoded body outcome, `IcpQuery` and `Query` produce
the same error classification and, on success, the same SeriesSet; and
their request paths differ exactly by the gateway path segment. -/
theorem IcpQuery_Query_equivalent :
    (∀ (url : String) (sc : Nat) (st : String) (body : Option promResponse),
      IcpQuery_onResponse url sc st body = Query_onResponse url sc st body)
    ∧ icpPath = "prometheus/" ++ queryPath := by
  refine ⟨fun url sc st body => ?_, by decide⟩
  rw [IcpQuery_onResponse.eq_def, Query_onResponse.eq_def]
  cases body with
  | none => rfl
  | some resp => simp only [IcpQuery_results_eq]

/-- C10: if every entry of every series' values array is a two-element
pair of a number and a string, the extraction loops of `Query` and
`IcpQuery` complete without a type-assertion fault, and the resulting
sample map is keyed by the timestamps formatted with no fractional
digits. -/
theorem values_extraction_total (values : List (List JVal))
    (hshape : ∀ vals ∈ values, ∃ t v, vals = [JVal.num t, JVal.str v]) :
    Query_values values [] = some (pureValues values [])
    ∧ IcpQuery_values values [] = some (pureValues values [])
    ∧ ∀ k ∈ (pureValues values []).map Prod.fst,
        ∃ t, k = fmtNoFrac t ∧ ∃ v, [JVal.num t, JVal.str v] ∈ values := by
  refine ⟨Query_values_eq_pure values [] hshape, ?_, ?_⟩
  · rw [IcpQuery_values_eq]
    exact Query_values_eq_pure values [] hshape
  · intro k hk
    rcases pureValues_keys values [] hshape k hk with hin | hfound
    · simp at hin
    · exact hfound

/-- Witness for C10 on a concrete well-shaped values array. -/
theorem values_extraction_total_witness :
    Query_values [[JVal.num 10, JVal.str "1"], [JVal.num 20, JVal.str "2"]] []
      = some (pureValues [[JVal.num 10, JVal.str "1"], [JVal.num 20, JVal.str "2"]] []) :=
  (values_extraction_total [[JVal.num 10, JVal.str "1"], [JVal.num 20, JVal.str "2"]]
    (by
      intro vals hv
      cases hv with
      | head => exact ⟨10, "1", rfl⟩
      | tail _ hv =>
        cases hv with
        | head => exact ⟨20, "2", rfl⟩
        | tail _ hv => cases hv)).1


/-- The sorted timestamp axis has no duplicates. -/
theorem sortedTimes_nodup (results : List Result) : (sortedTimes results).Nodup :=
  ((List.perm_insertionSort strLe (unionTimes results)).nodup_iff).mpr
    (List.nodup_dedup _)

/-- The sorted timestamp axis is sorted by the Go string order. -/
theorem sortedTimes_sorted_le (results : List Result) :
    (sortedTimes results).Sorted strLe :=
  List.sorted_insertionSort strLe (unionTimes results)

/-- The sorted timestamp axis is strictly ascending. -/
theorem sortedTimes_sorted_lt (results : List Result) :
    (sortedTimes results).Sorted strLt := by
  have hand := (sortedTimes_sorted_le results).and (sortedTimes_nodup results)
  exact hand.imp (fun hab =>
    lt_of_le_of_ne hab.1 (fun he => hab.2 (String.toList_inj.mp he)))

/-- The sorted timestamp axis contains exactly the union of all series'
timestamp keys. -/
theorem mem_sortedTimes (results : List Result) (t : String) :
    t ∈ sortedTimes results ↔ ∃ r ∈ results, t ∈ seriesKeys r := by
  rw [sortedTimes, (List.perm_insertionSort strLe (unionTimes results)).mem_iff,
    unionTimes, List.mem_dedup, List.mem_flatten]
  constructor
  · rintro ⟨l, hl, htl⟩
    rw [List.mem_map] at hl
    obtain ⟨r, hr, rfl⟩ := hl
    exact ⟨r, hr, htl⟩
  · rintro ⟨r, hr, htr⟩
    exact ⟨seriesKeys r, List.mem_map_of_mem seriesKeys hr, htr⟩


/-- C1: the aligned timestamp axis built by the renderers is exactly the
deduplicated, ascending-sorted union of all Series' sample keys; a
timestamp carried by only one Series still yields a full row/column,
with the absence marker (`None` in plotting output, the empty field in
tabular output) for every Series lacking it; in particular, for two
Series with keys `10,20` and `20,30` the axis is `10,20,30`, series 2 is
absent at `10` and series 1 is absent at `30`. -/
theorem alignedGrid_axis_and_absence :
    (∀ results : List Result,
      (sortedTimes results).Nodup
      ∧ (sortedTimes results).Sorted strLt
      ∧ (∀ t, t ∈ sortedTimes results ↔ ∃ r ∈ results, t ∈ seriesKeys r))
    ∧ (∀ (times : List String) (r : Result) (j : Nat) (hj : j < times.length),
        r.Values.lookup times[j] = none →
        (mplVals times r).getD j "" = "None")
    ∧ (∀ (results : List Result) (i : Nat) (hi : i < results.length) (tm : String),
        results[i].Values.lookup tm = none →
        (csvFields results tm).getD i "?" = "")
    ∧ (sortedTimes [Result.mk "series1" [("10", "1"), ("20", "2")],
          Result.mk "series2" [("20", "3"), ("30", "4")]] = ["10", "20", "30"]
      ∧ mplVals ["10", "20", "30"] (Result.mk "series2" [("20", "3"), ("30", "4")])
          = ["None", "3", "4"]
      ∧ mplVals ["10", "20", "30"] (Result.mk "series1" [("10", "1"), ("20", "2")])
          = ["1", "2", "None"]
      ∧ csvFields [Result.mk "series1" [("10", "1"), ("20", "2")],
          Result.mk "series2" [("20", "3"), ("30", "4")]] "10" = ["1", ""]
      ∧ csvFields [Result.mk "series1" [("10", "1"), ("20", "2")],
          Result.mk "series2" [("20", "3"), ("30", "4")]] "30" = ["", "4"]) := by
  refine ⟨fun results => ⟨sortedTimes_nodup results, sortedTimes_sorted_lt results,
      mem_sortedTimes results⟩,
    fun times r j hj hnone => ?_, fun results i hi tm hnone => ?_,
    by decide, by decide, by decide, by decide, by decide⟩
  · rw [mplVals, List.getD_eq_getElem?_getD, List.getElem?_map,
      List.getElem?_eq_getElem hj]
    simp [hnone]
  · rw [csvFields, List.getD_eq_getElem?_getD, List.getElem?_map,
      List.getElem?_eq_getElem hi]
    simp [hnone]

/-- Witness for C1: absence markers at concrete positions. -/
theorem alignedGrid_axis_and_absence_witness :
    (mplVals ["10"] (Result.mk "m" [])).getD 0 "" = "None"
    ∧ (csvFields [Result.mk "m" []] "10").getD 0 "?" = "" :=
  ⟨alignedGrid_axis_and_absence.2.1 ["10"] (Result.mk "m" []) 0 (by decide) (by decide),
   alignedGrid_axis_and_absence.2.2.1 [Result.mk "m" []] 0 (by decide) "10" (by decide)⟩


/-- Two Result lists are presentations of the same SeriesSet when they
agree pointwise up to the iteration order of each sample map. -/
def SameSeries (a b : Result) : Prop :=
  a.Metric = b.Metric ∧ a.Values.Perm b.Values

/-- Go map lookup does not depend on iteration order when the keys are
pairwise distinct. -/
theorem lookup_perm {l₁ l₂ : List (String × String)} (h : l₁.Perm l₂) :
    (l₁.map Prod.fst).Nodup → ∀ k, l₁.lookup k = l₂.lookup k := by
  induction h with
  | nil => exact fun _ _ => rfl
  | cons x h ih =>
    intro hnd k
    obtain ⟨xk, xv⟩ := x
    rw [List.map_cons, List.nodup_cons] at hnd
    cases hbeq : k == xk with
    | true => simp [List.lookup, hbeq]
    | false => simp [List.lookup, hbeq, ih hnd.2 k]
  | swap x y t =>
    intro hnd k
    obtain ⟨yk, yv⟩ := y
    obtain ⟨xk, xv⟩ := x
    rw [List.map_cons, List.map_cons, List.nodup_cons] at hnd
    have hxy : yk ≠ xk := fun he => hnd.1 (by simp [he])
    cases hky : k == yk with
    | true =>
      cases hkx : k == xk with
      | true =>
        exact absurd ((beq_iff_eq.mp hky).symm.trans (beq_iff_eq.mp hkx)) hxy
      | false => simp [List.lookup, hky, hkx]
    | false =>
      cases hkx : k == xk with
      | true => simp [List.lookup, hky, hkx]
      | false => simp [List.lookup, hky, hkx]
  | trans h₁ h₂ ih₁ ih₂ =>
    intro hnd k
    exact (ih₁ hnd k).trans (ih₂ (((h₁.map Prod.fst).nodup_iff).mp hnd) k)

/-- The aligned value list of a series is insensitive to the iteration
order of its sample map. -/
theorem mplVals_perm_eq (T : List String) {a b : Result}
    (hm : a.Values.Perm b.Values) (hnd : (a.Values.map Prod.fst).Nodup) :
    mplVals T a = mplVals T b :=
  List.map_congr_left (fun tm _ => by rw [lookup_perm hm hnd tm])

/-- Display-name columns agree between two presentations of the same
SeriesSet. -/
theorem forall2_metric_map {rs1 rs2 : List Result}
    (h : List.Forall₂ SameSeries rs1 rs2) :
    rs1.map (fun r => r.Metric) = rs2.map (fun r => r.Metric) := by
  induction h with
  | nil => rfl
  | cons hab h ih => simp [hab.1, ih]

/-- Quoted legend labels agree between two presentations of the same
SeriesSet. -/
theorem forall2_quoted_map {rs1 rs2 : List Result}
    (h : List.Forall₂ SameSeries rs1 rs2) :
    rs1.map (fun r => "'" ++ r.Metric ++ "'") = rs2.map (fun r => "'" ++ r.Metric ++ "'") := by
  induction h with
  | nil => rfl
  | cons hab h ih => simp [hab.1, ih]

/-- The concatenation of all timestamp keys is permuted when each sample
map is permuted. -/
theorem forall2_flatten_perm {rs1 rs2 : List Result}
    (h : List.Forall₂ SameSeries rs1 rs2) :
    ((rs1.map seriesKeys).flatten).Perm ((rs2.map seriesKeys).flatten) := by
  induction h with
  | nil => exact List.Perm.refl _
  | cons hab h ih =>
    simp only [List.map_cons, List.flatten_cons]
    exact (hab.2.map Prod.fst).append ih

/-- The sorted timestamp axis agrees between two presentations of the
same SeriesSet. -/
theorem forall2_sortedTimes_eq {rs1 rs2 : List Result}
    (h : List.Forall₂ SameSeries rs1 rs2) :
    sortedTimes rs1 = sortedTimes rs2 :=
  insertionSort_eq_of_perm ((forall2_flatten_perm h).dedup)

/-- CSV fields agree between two presentations of the same SeriesSet. -/
theorem forall2_csvFields_eq {rs1 rs2 : List Result}
    (h : List.Forall₂ SameSeries rs1 rs2) :
    (∀ r ∈ rs1, (r.Values.map Prod.fst).Nodup) →
    ∀ tm, csvFields rs1 tm = csvFields rs2 tm := by
  induction h with
  | nil => exact fun _ _ => rfl
  | cons hab h ih =>
    intro hnd tm
    simp only [csvFields, List.map_cons] at *
    rw [lookup_perm hab.2 (hnd _ (List.mem_cons_self _ _)) tm]
    rw [ih (fun r hr => hnd r (List.mem_cons_of_mem _ hr)) tm]

/-- The per-series plotting lines agree between two presentations of the
same SeriesSet, whatever the starting index. -/
theorem forall2_mplLines_eq (T : List String) {rs1 rs2 : List Result}
    (h : List.Forall₂ SameSeries rs1 rs2) :
    (∀ r ∈ rs1, (r.Values.map Prod.fst).Nodup) →
    ∀ n, (List.enumFrom n rs1).map (fun p => mplSeriesLines T p.1 p.2)
      = (List.enumFrom n rs2).map (fun p => mplSeriesLines T p.1 p.2) := by
  induction h with
  | nil => exact fun _ _ => rfl
  | cons hab h ih =>
    intro hnd n
    simp only [List.enumFrom, List.map_cons]
    rw [mplSeriesLines, mplSeriesLines,
      mplVals_perm_eq T hab.2 (hnd _ (List.mem_cons_self _ _)),
      ih (fun r hr => hnd r (List.mem_cons_of_mem _ hr)) (n + 1)]

/-- C9: rendering is deterministic — the renderers' output is a function
of the SeriesSet alone: permuting the iteration order of any sample map
(keys pairwise distinct, as in a Go map) changes no renderer's output,
and any iteration order of the timestamp-deduplication map sorts to the
same axis, so two invocations on the same SeriesSet produce
byte-identical output. -/
theorem rendering_deterministic :
    (∀ (uxdate : String → String) (rs1 rs2 : List Result),
      List.Forall₂ SameSeries rs1 rs2 →
      (∀ r ∈ rs1, (r.Values.map Prod.fst).Nodup) →
      csvWriter uxdate rs1 = csvWriter uxdate rs2
      ∧ csvHeaderWriter rs1 = csvHeaderWriter rs2
      ∧ matplotlibWriter rs1 = matplotlibWriter rs2
      ∧ matplotlibLegendWriter rs1 = matplotlibLegendWriter rs2)
    ∧ (∀ (results : List Result) (enum : List String),
        enum.Nodup → (∀ t, t ∈ enum ↔ t ∈ unionTimes results) →
        enum.insertionSort strLe = sortedTimes results) := by
  refine ⟨fun uxdate rs1 rs2 h hnd => ?_, fun results enum hen hmem => ?_⟩
  · have hlen := h.length_eq
    have hst : sortedTimes rs1 = sortedTimes rs2 := forall2_sortedTimes_eq h
    have hmet := forall2_metric_map h
    refine ⟨?_, ?_, ?_, ?_⟩
    · rw [csvWriter, csvWriter, hlen]
      by_cases h0 : rs2.length = 0
      · simp [h0]
      · rw [if_neg h0, if_neg h0, hst]
        congr 1
        apply List.map_congr_left
        intro tm _
        rw [csvRow, csvRow, forall2_csvFields_eq h hnd tm]
    · rw [csvHeaderWriter, csvHeaderWriter, hlen, hmet]
    · rw [matplotlibWriter, matplotlibWriter, hlen]
      by_cases h0 : rs2.length = 0
      · simp [h0]
      · rw [if_neg h0, if_neg h0, hst]
        have henum := forall2_mplLines_eq (sortedTimes rs2) h hnd 0
        congr 1
        exact congrArg String.join henum
    · rw [matplotlibLegendWriter, matplotlibLegendWriter, forall2_quoted_map h]
  · exact insertionSort_eq_of_perm
      ((List.perm_ext_iff_of_nodup hen (List.nodup_dedup _)).mpr hmem)

/-- Witness for C9: the same series with its sample map in two iteration
orders renders identically. -/
theorem rendering_deterministic_witness :
    csvWriter id [Result.mk "m" [("1", "a"), ("2", "b")]]
      = csvWriter id [Result.mk "m" [("2", "b"), ("1", "a")]]
    ∧ csvHeaderWriter [Result.mk "m" [("1", "a"), ("2", "b")]]
      = csvHeaderWriter [Result.mk "m" [("2", "b"), ("1", "a")]]
    ∧ matplotlibWriter [Result.mk "m" [("1", "a"), ("2", "b")]]
      = matplotlibWriter [Result.mk "m" [("2", "b"), ("1", "a")]]
    ∧ matplotlibLegendWriter [Result.mk "m" [("1", "a"), ("2", "b")]]
      = matplotlibLegendWriter [Result.mk "m" [("2", "b"), ("1", "a")]] :=
  rendering_deterministic.1 id
    [Result.mk "m" [("1", "a"), ("2", "b")]]
    [Result.mk "m" [("2", "b"), ("1", "a")]]
    (List.Forall₂.cons ⟨rfl, by decide⟩ List.Forall₂.nil)
    (by decide)

end Styx
